import Mathlib

/-
Verification of the schemapi core of altair (tools/schemapi/schemapi.py).

The Python module implements a schema-driven generic object model:
`SchemaBase` wrapper objects hold either one positional value (`_args`)
or named fields (`_kwds`); `_todict`/`to_dict` canonicalize them into
nested mapping/sequence values; `validate_jsonschema` consolidates raw
jsonschema errors; `_resolve_references` follows `$ref` chains; and
`_FromDict.from_dict` reconstructs wrapper objects from canonical values.

This file gives a shallow embedding of that module.  Python values
(None, bool, number, str, list, dict, SchemaBase instance, and the
`Undefined` sentinel) are modelled by the inductive type `Val`; Python
dicts are association lists in insertion order (Python dicts preserve
insertion order and have unique keys).  Schemas are themselves `Val`
dicts, as in the source.  Exceptions are modelled by `Except` with the
`PyErr` error type.  Recursion in the Python code is unbounded, so the
recursive operations take an explicit fuel argument; exhausting fuel
models exceeding the interpreter recursion/loop budget.  The external
`jsonschema` library validator (`_get_errors_from_spec`) is modelled as
an oracle parameter producing the flat list of raw errors, exactly the
role it has at the module boundary.
-/

/-- A Python runtime value as handled by schemapi: the `Undefined`
sentinel, None, bool, number, string, list, dict (association list in
insertion order), or a `SchemaBase` instance `vobj cls args kwds`
(class identified by a numeric id, positional `_args`, named `_kwds`). -/
inductive Val where
  | undef : Val
  | vnull : Val
  | vbool : Bool → Val
  | vnum : Int → Val
  | vstr : String → Val
  | vlist : List Val → Val
  | vdict : List (String × Val) → Val
  | vobj : Nat → List Val → List (String × Val) → Val

/-- First-match lookup in an association list, like a Python dict read. -/
def lookupD : List (String × Val) → String → Option Val
  | [], _ => none
  | (k, v) :: rest, key => if k = key then some v else lookupD rest key

/-- Python dict assignment `d[k] = v`: update an existing key in place,
else append at the end (insertion order). -/
def setK : List (String × Val) → String → Val → List (String × Val)
  | [], key, v => [(key, v)]
  | (k, w) :: rest, key, v =>
    if k = key then (k, v) :: rest else (k, w) :: setK rest key v

/-- Read a key from a schema (schemas are `Val` dicts); non-dict schemas
have no keys, like `"k" in schema` being false. -/
def sGet (schema : Val) (key : String) : Option Val :=
  match schema with
  | Val.vdict xs => lookupD xs key
  | _ => none

/-- `schema.get(key, [])` where the value is expected to be a list. -/
def sGetL (schema : Val) (key : String) : List Val :=
  match sGet schema key with
  | some (Val.vlist xs) => xs
  | _ => []

/-- `schema.get(key, {})` where the value is expected to be a dict. -/
def sGetD (schema : Val) (key : String) : List (String × Val) :=
  match sGet schema key with
  | some (Val.vdict xs) => xs
  | _ => []

/-- A raw validation error as produced by the jsonschema library:
json path, violated rule name (`validator`), the rule value
(`validator_value`, a list of strings: enum members or required names),
the message, the identity and rule of the parent error when the error
arose inside a union branch (`err.parent`), and the nested sub-errors
(`err.context`). -/
inductive VErr where
  | mk : (json_path : String) → (validator : String) →
      (validator_value : List String) → (message : String) →
      (parentId : Option Nat) → (parentValidator : String) →
      (context : List VErr) → VErr

def VErr.json_path : VErr → String
  | VErr.mk p _ _ _ _ _ _ => p

def VErr.validator : VErr → String
  | VErr.mk _ v _ _ _ _ _ => v

def VErr.validator_value : VErr → List String
  | VErr.mk _ _ vv _ _ _ _ => vv

def VErr.message : VErr → String
  | VErr.mk _ _ _ m _ _ _ => m

def VErr.parentId : VErr → Option Nat
  | VErr.mk _ _ _ _ p _ _ => p

def VErr.parentValidator : VErr → String
  | VErr.mk _ _ _ _ _ pv _ => pv

def VErr.context : VErr → List VErr
  | VErr.mk _ _ _ _ _ _ c => c

/-- Grouped errors, keyed by json path in insertion order
(`GroupedValidationErrors` in the source). -/
def GroupedErrs := List (String × List VErr)

/-- Python `value.startswith(x)`: `x` is a prefix of `value` (compared
on the character lists). -/
def strStarts (x value : String) : Bool :=
  x.data.isPrefixOf value.data

/-- Mirrors `_contained_at_start_of_one_of_other_values`: true when some
other (different) string in `values` starts with `x`. -/
def contained_at_start_of_one_of_other_values (x : String) (values : List String) : Bool :=
  values.any (fun value => decide (x ≠ value) && strStarts x value)

mutual

/-- Mirrors `_get_leaves_of_error_tree` on a single error: an error with
sub-errors (`err.context`) is replaced by the leaves of its sub-tree. -/
def leaves_of_error : VErr → List VErr
  | VErr.mk p v vv m pid pv ctx =>
    match ctx with
    | [] => [VErr.mk p v vv m pid pv []]
    | c :: cs => leaves_of_list (c :: cs)

/-- Mirrors `_get_leaves_of_error_tree` on a list of errors. -/
def leaves_of_list : List VErr → List VErr
  | [] => []
  | e :: rest => leaves_of_error e ++ leaves_of_list rest

end

/-- Insert one error into the path-keyed grouping, preserving first-seen
key order (Python defaultdict insertion order). -/
def groupInsert : List (String × List VErr) → String → VErr → List (String × List VErr)
  | [], p, e => [(p, [e])]
  | (q, es) :: rest, p, e =>
    if q = p then (q, es ++ [e]) :: rest else (q, es) :: groupInsert rest p e

/-- Mirrors `_group_errors_by_json_path`. -/
def group_errors_by_json_path (errors : List VErr) : List (String × List VErr) :=
  errors.foldl (fun acc e => groupInsert acc e.json_path e) []

/-- Mirrors `_subset_to_most_specific_json_paths`: drop a group whose
json path is contained at the start of another distinct path. -/
def subset_to_most_specific_json_paths (grouped : List (String × List VErr)) :
    List (String × List VErr) :=
  grouped.filter (fun kv =>
    !contained_at_start_of_one_of_other_values kv.1 (grouped.map Prod.fst))

/-- Insert one error into the validator-keyed grouping. -/
def groupInsertV : List (String × List VErr) → VErr → List (String × List VErr)
  | [], e => [(e.validator, [e])]
  | (q, es) :: rest, e =>
    if q = e.validator then (q, es ++ [e]) :: rest else (q, es) :: groupInsertV rest e

/-- Mirrors `_group_errors_by_validator`. -/
def group_errors_by_validator (errors : List VErr) : List (String × List VErr) :=
  errors.foldl groupInsertV []

/-- Mirrors `_deduplicate_enum_errors`: with more than one enum error,
drop each whose comma-joined `validator_value` is contained at the start
of another comma-joined value string. -/
def deduplicate_enum_errors (errors : List VErr) : List VErr :=
  if errors.length > 1 then
    let value_strings := errors.map (fun e => String.intercalate "," e.validator_value)
    errors.filter (fun e =>
      !contained_at_start_of_one_of_other_values
        (String.intercalate "," e.validator_value) value_strings)
  else errors

/-- First element of minimal message length, mirroring Python
`min(errors, key=lambda x: len(x.message))`. -/
def minByMessage (e : VErr) (rest : List VErr) : VErr :=
  rest.foldl (fun best x => if x.message.length < best.message.length then x else best) e

/-- Mirrors `_deduplicate_additional_properties_errors`: with more than
one error, if the first error has a parent, the parent rule is `anyOf`,
and all the other errors have the identical parent, keep only the error
with the shortest message. -/
def deduplicate_additional_properties_errors (errors : List VErr) : List VErr :=
  match errors with
  | [] => []
  | [e] => [e]
  | e0 :: e1 :: rest =>
    match e0.parentId with
    | none => e0 :: e1 :: rest
    | some pid =>
      if e0.parentValidator = "anyOf" ∧ (e1 :: rest).all (fun e => e.parentId = some pid)
      then [minByMessage e0 (e1 :: rest)]
      else e0 :: e1 :: rest

/-- Association-list update used to model a Python dict comprehension
keyed by message: a later duplicate overwrites the stored error but the
key keeps its first position. -/
def msgInsert : List (String × VErr) → VErr → List (String × VErr)
  | [], e => [(e.message, e)]
  | (m, f) :: rest, e =>
    if m = e.message then (m, e) :: rest else (m, f) :: msgInsert rest e

/-- Mirrors `_deduplicate_by_message`:
`list({e.message: e for e in errors}.values())`. -/
def deduplicate_by_message (errors : List VErr) : List VErr :=
  (errors.foldl msgInsert []).map Prod.snd

/-- Mirrors `_is_required_value_error`. -/
def is_required_value_error (e : VErr) : Bool :=
  e.validator = "required" && e.validator_value = ["value"]

/-- The per-validator deduplication dispatch inside `_deduplicate_errors`. -/
def dedupForValidator (validator : String) (errs : List VErr) : List VErr :=
  if validator = "enum" then deduplicate_enum_errors errs
  else if validator = "additionalProperties" then
    deduplicate_additional_properties_errors errs
  else errs

/-- Mirrors the inner loop of `_deduplicate_errors` for one json-path
group: group by validator, apply the per-validator deduplication, then
deduplicate by message, and finally drop required-value errors. -/
def deduplicateGroup (element_errors : List VErr) : List VErr :=
  let by_validator := group_errors_by_validator element_errors
  let deduplicated :=
    by_validator.foldl
      (fun acc kv => acc ++ deduplicate_by_message (dedupForValidator kv.1 kv.2)) []
  deduplicated.filter (fun e => !is_required_value_error e)

/-- Mirrors `_deduplicate_errors` over all groups (keys are kept, so a
group can end up with an empty error list). -/
def deduplicate_errors (grouped : List (String × List VErr)) :
    List (String × List VErr) :=
  grouped.map (fun kv => (kv.1, deduplicateGroup kv.2))

/-- The full consolidation pipeline applied by `validate_jsonschema`
when the raw error list is non-empty: flatten to leaves, group by json
path, subset to most specific paths, deduplicate. -/
def consolidate (errors : List VErr) : List (String × List VErr) :=
  deduplicate_errors
    (subset_to_most_specific_json_paths
      (group_errors_by_json_path (leaves_of_list errors)))

/-- Python exceptions raised by the schemapi module: `ValueError` (both
positional and named data, or bad from_dict arguments), `AssertionError`
(the constructor asserts), `AttributeError`, the `IndexError` from
`list(grouped_errors.values())[0][0]`, `RecursionError` (exceeded
recursion/loop budget, the fuel of this embedding), the raised
`jsonschema.ValidationError` carrying its `_all_errors` grouping, and
the wrapping `SchemaValidationError`. -/
inductive PyErr where
  | valueError : PyErr
  | assertionError : PyErr
  | attributeError : PyErr
  | indexError : PyErr
  | recursionError : PyErr
  | validationError : VErr → List (String × List VErr) → PyErr
  | schemaValidationError : VErr → List (String × List VErr) → PyErr

/-- The ambient configuration of the module: the external jsonschema
validator as an oracle giving the flat raw error list of
`_get_errors_from_spec spec schema rootschema`; the `_schema` bound to
each wrapper class id; the shared `_rootschema`; and the global
`DEBUG_MODE` flag. -/
structure Model where
  oracle : Val → Val → Val → List VErr
  env : Nat → Val
  root : Val
  debug : Bool

/-- JSON-pointer name of a `#/definitions/...` reference. -/
def refName (r : String) : Option String :=
  if strStarts "#/definitions/" r then some (r.drop 14) else none

/-- Mirrors `_resolve_references`: follow the chain of top-level `$ref`
keys against the root schema.  The Python `while` loop is unbounded;
`fuel` bounds the number of iterations modelled, and `none` means the
loop performed `fuel` iterations without reaching a `$ref`-free schema
(on a cyclic reference chain this holds for every fuel: the loop never
exits). -/
def resolve_references : Nat → Val → Val → Option Val
  | fuel, schema, root =>
    match sGet schema "$ref" with
    | none => some schema
    | some (Val.vstr r) =>
      match fuel with
      | 0 => none
      | f + 1 =>
        match refName r with
        | none => none
        | some name =>
          match lookupD (sGetD root "definitions") name with
          | none => none
          | some next => resolve_references f next root
    | some _ => none

/-- Mirrors `validate_jsonschema` (with `raise_error=True`): run the
external validator, and if it reports errors, consolidate them and
raise the first error of the first retained group, with the full
consolidated grouping attached (`_all_errors`).  When consolidation
leaves the first group (or the grouping) empty, the subscript
`list(grouped_errors.values())[0][0]` raises an `IndexError`. -/
def validate_jsonschema (M : Model) (spec schema rootschema : Val) :
    Except PyErr Unit :=
  let errors := M.oracle spec schema rootschema
  match errors with
  | [] => Except.ok ()
  | e :: rest =>
    let grouped := consolidate (e :: rest)
    match grouped with
    | [] => Except.error PyErr.indexError
    | (_, []) :: _ => Except.error PyErr.indexError
    | (_, main :: _) :: _ => Except.error (PyErr.validationError main grouped)

/-- Python `v is Undefined`. -/
def isUndef : Val → Bool
  | Val.undef => true
  | _ => false

/-- Python `isinstance(v, str)`. -/
def isStr : Val → Bool
  | Val.vstr _ => true
  | _ => false

/-- Python `isinstance(v, SchemaBase)`. -/
def isObjV : Val → Bool
  | Val.vobj _ _ _ => true
  | _ => false

/-- The filter in `to_dict`:
`{k: v for k, v in kwds.items() if k not in list(ignore) + ["shorthand"]}`. -/
def filterIgnSh (kwds : List (String × Val)) (ignore : List String) :
    List (String × Val) :=
  kwds.filter (fun kv => !(ignore.contains kv.1) && kv.1 ≠ "shorthand")

/-- The mark promotion in `to_dict`: when the `mark` field holds a
string `m`, replace it by `{"type": m}`. -/
def markPromote (kwds : List (String × Val)) : List (String × Val) :=
  kwds.map (fun kv =>
    match kv with
    | (k, Val.vstr s) =>
      if k = "mark" then (k, Val.vdict [("type", Val.vstr s)]) else (k, Val.vstr s)
    | kv => kv)

mutual

/-- Mirrors `_todict` (with the context fixed to the default empty
dict): a `SchemaBase` instance canonicalizes through its own
`to_dict(validate=False)`; lists map elementwise; dicts drop entries
whose value is the sentinel and map the rest; everything else is
returned unchanged.  `fuel` bounds the recursion depth. -/
def todict : Nat → Val → Except PyErr Val
  | 0, _ => Except.error PyErr.recursionError
  | f + 1, Val.vobj c args kwds => toDictCore f c args kwds []
  | f + 1, Val.vlist xs => do
    let ys ← todictL f xs
    pure (Val.vlist ys)
  | f + 1, Val.vdict xs => do
    let ys ← todictEntries f (xs.filter (fun kv => !isUndef kv.2))
    pure (Val.vdict ys)
  | _ + 1, x => Except.ok x

/-- Elementwise `_todict` over a list. -/
def todictL : Nat → List Val → Except PyErr (List Val)
  | 0, _ => Except.error PyErr.recursionError
  | _ + 1, [] => Except.ok []
  | f + 1, x :: xs => do
    let y ← todict f x
    let ys ← todictL f xs
    pure (y :: ys)

/-- `_todict` over the values of dict entries (the entries were already
filtered for the sentinel). -/
def todictEntries : Nat → List (String × Val) → Except PyErr (List (String × Val))
  | 0, _ => Except.error PyErr.recursionError
  | _ + 1, [] => Except.ok []
  | f + 1, (k, v) :: xs => do
    let w ← todict f v
    let ws ← todictEntries f xs
    pure ((k, w) :: ws)

/-- Mirrors the canonicalization part of `SchemaBase.to_dict` (with the
context fixed to the default empty dict, so `parsed_shorthand` is empty
and its merge is a no-op): a positionally-constructed instance
canonicalizes its single value; a field-constructed instance drops the
`ignore` list and the `shorthand` key, promotes a string `mark`, and
canonicalizes the resulting dict; an instance with both positional and
named data raises `ValueError`. -/
def toDictCore : Nat → Nat → List Val → List (String × Val) → List String →
    Except PyErr Val
  | 0, _, _, _, _ => Except.error PyErr.recursionError
  | f + 1, _, a :: _, [], _ => todict f a
  | f + 1, _, [], kwds, ignore => do
    let ws ← todictEntries f
      ((markPromote (filterIgnSh kwds ignore)).filter (fun kv => !isUndef kv.2))
    pure (Val.vdict ws)
  | _ + 1, _, _ :: _, _ :: _, _ => Except.error PyErr.valueError

end

/-- Mirrors `SchemaBase.to_dict` on an instance of class `c` with the
given `_args` and `_kwds`: canonicalize, then if `validate` is set run
`validate_jsonschema` against the class schema in the context of the
root schema, turning a raised `ValidationError` into a
`SchemaValidationError` and letting any other exception propagate. -/
def to_dict (M : Model) (fuel : Nat) (c : Nat) (args : List Val)
    (kwds : List (String × Val)) (validate : Bool) (ignore : List String) :
    Except PyErr Val :=
  match toDictCore fuel c args kwds ignore with
  | Except.error e => Except.error e
  | Except.ok result =>
    if validate then
      match validate_jsonschema M result (M.env c) M.root with
      | Except.ok _ => Except.ok result
      | Except.error (PyErr.validationError main grouped) =>
        Except.error (PyErr.schemaValidationError main grouped)
      | Except.error e => Except.error e
    else Except.ok result

/-- Mirrors `SchemaBase.__init__`: named fields require zero positional
arguments, otherwise at most one positional argument is allowed (the
constructor asserts); then, when the debug flag is set, the new
instance eagerly validates itself via `to_dict(validate=True)`. -/
def SchemaBase_init (M : Model) (fuel : Nat) (c : Nat) (args : List Val)
    (kwds : List (String × Val)) : Except PyErr Val :=
  match kwds with
  | _ :: _ =>
    match args with
    | _ :: _ => Except.error PyErr.assertionError
    | [] =>
      if M.debug then
        match to_dict M fuel c args kwds true [] with
        | Except.error e => Except.error e
        | Except.ok _ => Except.ok (Val.vobj c args kwds)
      else Except.ok (Val.vobj c args kwds)
  | [] =>
    if args.length ≤ 1 then
      if M.debug then
        match to_dict M fuel c args kwds true [] with
        | Except.error e => Except.error e
        | Except.ok _ => Except.ok (Val.vobj c args kwds)
      else Except.ok (Val.vobj c args kwds)
    else Except.error PyErr.assertionError

/-- Mirrors `SchemaBase._get`: read `_kwds` with `Undefined` as the
missing marker, then replace a sentinel result by `default`. -/
def SchemaBase_get (o : Val) (attr : String) (default : Val) : Val :=
  match o with
  | Val.vobj _ _ kwds =>
    match lookupD kwds attr with
    | some v => if isUndef v then default else v
    | none => default
  | _ => default

/-- Mirrors `SchemaBase.__getattr__` for data fields: a name present in
`_kwds` yields its value (even the sentinel); any other name falls back
to ordinary attribute lookup, which fails with `AttributeError`. -/
def SchemaBase_getattr (o : Val) (attr : String) : Except PyErr Val :=
  match o with
  | Val.vobj _ _ kwds =>
    match lookupD kwds attr with
    | some v => Except.ok v
    | none => Except.error PyErr.attributeError
  | _ => Except.error PyErr.attributeError

/-- Mirrors `SchemaBase.__setattr__`: `self._kwds[item] = val`,
unconditionally, with no check of the positional/named split. -/
def SchemaBase_setattr (o : Val) (attr : String) (v : Val) : Val :=
  match o with
  | Val.vobj c args kwds => Val.vobj c args (setK kwds attr v)
  | x => x

mutual

/-- Structural Bool equality on values (used to model hash-table lookup
by schema hash: equal normalized schemas collide to the same bucket). -/
def vbeq : Val → Val → Bool
  | Val.undef, Val.undef => true
  | Val.vnull, Val.vnull => true
  | Val.vbool a, Val.vbool b => a == b
  | Val.vnum a, Val.vnum b => a == b
  | Val.vstr a, Val.vstr b => a == b
  | Val.vlist xs, Val.vlist ys => vbeqL xs ys
  | Val.vdict xs, Val.vdict ys => vbeqD xs ys
  | Val.vobj c a k, Val.vobj c2 a2 k2 => c == c2 && vbeqL a a2 && vbeqD k k2
  | _, _ => false

/-- Elementwise structural equality of value lists. -/
def vbeqL : List Val → List Val → Bool
  | [], [] => true
  | x :: xs, y :: ys => vbeq x y && vbeqL xs ys
  | _, _ => false

/-- Entrywise structural equality of dict entry lists. -/
def vbeqD : List (String × Val) → List (String × Val) → Bool
  | [], [] => true
  | (k, v) :: xs, (k2, v2) :: ys => k == k2 && vbeq v v2 && vbeqD xs ys
  | _, _ => false

end

mutual

/-- Python `==` on values, at bounded recursion depth: dict comparison
is order-insensitive (same size, every key present with an equal
value), and `SchemaBase.__eq__` compares class, `_args` and `_kwds`. -/
def pyEq : Nat → Val → Val → Bool
  | 0, _, _ => false
  | _ + 1, Val.undef, Val.undef => true
  | _ + 1, Val.vnull, Val.vnull => true
  | _ + 1, Val.vbool a, Val.vbool b => a == b
  | _ + 1, Val.vnum a, Val.vnum b => a == b
  | _ + 1, Val.vstr a, Val.vstr b => a == b
  | f + 1, Val.vlist xs, Val.vlist ys => pyEqL f xs ys
  | f + 1, Val.vdict xs, Val.vdict ys => xs.length == ys.length && pyEqD f xs ys
  | f + 1, Val.vobj c a k, Val.vobj c2 a2 k2 =>
    c == c2 && pyEqL f a a2 && (k.length == k2.length && pyEqD f k k2)
  | _ + 1, _, _ => false

/-- Python `==` on lists: same length and elementwise equal. -/
def pyEqL : Nat → List Val → List Val → Bool
  | _, [], [] => true
  | f, x :: xs, y :: ys => pyEq f x y && pyEqL f xs ys
  | _, _, _ => false

/-- Python `==` on dicts, one side: every entry of the first dict is
present in the second with an equal value. -/
def pyEqD : Nat → List (String × Val) → List (String × Val) → Bool
  | _, [], _ => true
  | f, (k, v) :: rest, ys =>
    (match lookupD ys k with
     | some w => pyEq f v w
     | none => false) && pyEqD f rest ys

end

/-- Mirrors `_FromDict.hash_schema` up to hash injectivity: the hash of
a schema is modelled by the schema itself with the volatile top-level
keys (`_hash_exclude_keys`) removed; two schemas share a registry
bucket exactly when these normal forms are equal. -/
def hash_schema (schema : Val) : Val :=
  match schema with
  | Val.vdict xs =>
    Val.vdict (xs.filter (fun kv =>
      !(["definitions", "title", "description", "$schema", "id"].contains kv.1)))
  | s => s

/-- Registry bucket lookup, `self.class_dict[self.hash_schema(schema)]`
on the defaultdict: missing hash yields the empty bucket. -/
def regLookup (reg : List (Val × List Nat)) (h : Val) : List Nat :=
  match reg.find? (fun kv => vbeq kv.1 h) with
  | some kv => kv.2
  | none => []

/-- Registry construction mirroring `_FromDict.__init__`: append each
class to the bucket of its schema hash, in discovery order. -/
def regInsert (reg : List (Val × List Nat)) (h : Val) (c : Nat) : List (Val × List Nat) :=
  match reg with
  | [] => [(h, [c])]
  | (h2, cs) :: rest =>
    if vbeq h2 h then (h2, cs ++ [c]) :: rest else (h2, cs) :: regInsert rest h c

/-- Build the class registry from a class list in discovery order. -/
def buildClassDict (M : Model) (classes : List Nat) : List (Val × List Nat) :=
  classes.foldl (fun reg c => regInsert reg (hash_schema (M.env c)) c) []

/-- Construction `cls(**kwds)`: `_passthrough` (modelled by `none`)
returns the keyword dict itself; a wrapper class runs its constructor
on the named fields. -/
def constructK (M : Model) (fuel : Nat) (cls : Option Nat)
    (kwds : List (String × Val)) : Except PyErr Val :=
  match cls with
  | none => Except.ok (Val.vdict kwds)
  | some c => SchemaBase_init M fuel c [] kwds

/-- Construction `cls(x)` with one positional value: `_passthrough`
returns the value; a wrapper class runs its constructor on it. -/
def constructA (M : Model) (fuel : Nat) (cls : Option Nat) (x : Val) :
    Except PyErr Val :=
  match cls with
  | none => Except.ok x
  | some c => SchemaBase_init M fuel c [x] []

mutual

/-- Mirrors `_FromDict.from_dict M reg fuel dct cls schema rootschema
default_class` (with `none` as `_passthrough`): exactly one of `cls`
and `schema` must be given; a value that is already a wrapper instance
is returned unchanged; otherwise the class is the first registry match
for the schema hash, else the default; references are resolved; if the
resolved schema declares `anyOf` or `oneOf` the alternatives are tried
in order; otherwise mappings recurse through declared properties,
sequences recurse through `items`, and scalars construct directly. -/
def from_dict (M : Model) (reg : List (Val × List Nat)) :
    Nat → Val → Option Nat → Option Val → Option Val → Option Nat →
    Except PyErr Val
  | 0, _, _, _, _, _ => Except.error PyErr.recursionError
  | f + 1, dct, clsArg, schemaArg, rootArg, default_class =>
    match clsArg, schemaArg with
    | none, none => Except.error PyErr.valueError
    | some _, some _ => Except.error PyErr.valueError
    | some c, none =>
      fromDictBody M reg f dct (some c) (M.env c)
        (match rootArg with
         | some r => r
         | none => M.root)
        default_class
    | none, some schema =>
      fromDictBody M reg f dct none schema
        (match rootArg with
         | some r => r
         | none => schema)
        default_class

/-- The body of `from_dict` once schema and rootschema are fixed. -/
def fromDictBody (M : Model) (reg : List (Val × List Nat)) :
    Nat → Val → Option Nat → Val → Val → Option Nat → Except PyErr Val
  | 0, _, _, _, _, _ => Except.error PyErr.recursionError
  | f + 1, dct, clsArg, schema, root, default_class =>
    if isObjV dct then Except.ok dct
    else
      let cls : Option Nat :=
        match clsArg with
        | some c => some c
        | none =>
          match regLookup reg (hash_schema schema) with
          | c :: _ => some c
          | [] => default_class
      match resolve_references f schema root with
      | none => Except.error PyErr.recursionError
      | some schemaR =>
        match fromDictBranches M reg f dct root cls
            (sGetL schemaR "anyOf" ++ sGetL schemaR "oneOf") with
        | some r => r
        | none =>
          match dct with
          | Val.vdict entries => do
            let kwds ← fromDictEntries M reg f (sGetD schemaR "properties") root entries
            constructK M f cls kwds
          | Val.vlist xs => do
            let ys ← fromDictItems M reg f
              (match sGet schemaR "items" with
               | some s => s
               | none => Val.vdict []) root xs
            constructA M f cls (Val.vlist ys)
          | x => constructA M f cls x

/-- The `anyOf`/`oneOf` loop of `from_dict`: try each alternative in
order; on the first that validates, recurse with that alternative as
schema and the current match as default class; a raised
`ValidationError` means "this branch does not apply"; any other
exception (such as the consolidation `IndexError`) propagates.
`none` means no alternative validated (fall through). -/
def fromDictBranches (M : Model) (reg : List (Val × List Nat)) :
    Nat → Val → Val → Option Nat → List Val → Option (Except PyErr Val)
  | 0, _, _, _, _ => some (Except.error PyErr.recursionError)
  | _ + 1, _, _, _, [] => none
  | f + 1, dct, root, cls, s :: rest =>
    match validate_jsonschema M dct s root with
    | Except.ok _ => some (from_dict M reg f dct none (some s) (some root) cls)
    | Except.error (PyErr.validationError _ _) =>
      fromDictBranches M reg f dct root cls rest
    | Except.error e => some (Except.error e)

/-- The mapping branch of `from_dict`: recurse into each field declared
in the properties of the schema; other fields pass through unchanged. -/
def fromDictEntries (M : Model) (reg : List (Val × List Nat)) :
    Nat → List (String × Val) → Val → List (String × Val) →
    Except PyErr (List (String × Val))
  | 0, _, _, _ => Except.error PyErr.recursionError
  | _ + 1, _, _, [] => Except.ok []
  | f + 1, props, root, (k, v) :: rest => do
    let w ←
      match lookupD props k with
      | some sub => from_dict M reg f v none (some sub) (some root) none
      | none => Except.ok v
    let ws ← fromDictEntries M reg f props root rest
    pure ((k, w) :: ws)

/-- The sequence branch of `from_dict`: recurse into each element
against the `items` sub-schema. -/
def fromDictItems (M : Model) (reg : List (Val × List Nat)) :
    Nat → Val → Val → List Val → Except PyErr (List Val)
  | 0, _, _, _ => Except.error PyErr.recursionError
  | _ + 1, _, _, [] => Except.ok []
  | f + 1, itemSchema, root, x :: xs => do
    let y ← from_dict M reg f x none (some itemSchema) (some root) none
    let ys ← fromDictItems M reg f itemSchema root xs
    pure (y :: ys)

end

mutual

/-- A plain canonical JSON value: no sentinel and no wrapper instance
anywhere. -/
def plainJson : Val → Bool
  | Val.undef => false
  | Val.vobj _ _ _ => false
  | Val.vlist xs => plainJsonL xs
  | Val.vdict xs => plainJsonD xs
  | _ => true

/-- Plain canonical JSON, list version. -/
def plainJsonL : List Val → Bool
  | [] => true
  | x :: xs => plainJson x && plainJsonL xs

/-- Plain canonical JSON, dict entry version. -/
def plainJsonD : List (String × Val) → Bool
  | [] => true
  | (_, v) :: rest => plainJson v && plainJsonD rest

end

mutual

/-- Whether the `Undefined` sentinel occurs anywhere inside a value. -/
def containsUndef : Val → Bool
  | Val.undef => true
  | Val.vlist xs => containsUndefL xs
  | Val.vdict xs => containsUndefD xs
  | Val.vobj _ a k => containsUndefL a || containsUndefD k
  | _ => false

/-- Sentinel occurrence, list version. -/
def containsUndefL : List Val → Bool
  | [] => false
  | x :: xs => containsUndef x || containsUndefL xs

/-- Sentinel occurrence, dict entry version. -/
def containsUndefD : List (String × Val) → Bool
  | [] => false
  | (_, v) :: rest => containsUndef v || containsUndefD rest

end

mutual

/-- A simple schema fragment: no `$ref`, `anyOf` or `oneOf` anywhere
(recursively through `properties` values and `items`). -/
def simpleSch : Val → Bool
  | Val.vdict xs => simpleEntries xs
  | _ => true

/-- Simple-schema check over the entries of a schema dict. -/
def simpleEntries : List (String × Val) → Bool
  | [] => true
  | (k, v) :: rest =>
    !(k = "$ref" || k = "anyOf" || k = "oneOf") &&
    (if k = "properties" then propsSimple v
     else if k = "items" then simpleSch v
     else true) &&
    simpleEntries rest

/-- Simple-schema check for the value of a `properties` key. -/
def propsSimple : Val → Bool
  | Val.vdict xs => propsSimpleL xs
  | _ => true

/-- Simple-schema check over each declared property schema. -/
def propsSimpleL : List (String × Val) → Bool
  | [] => true
  | (_, s) :: rest => simpleSch s && propsSimpleL rest

end

/-- Named fields that round-trip cleanly: no field named `shorthand`,
every value a plain canonical JSON value (in particular not the
sentinel), and no string-valued field named `mark`. -/
def cleanFields : List (String × Val) → Bool
  | [] => true
  | (k, v) :: rest =>
    k ≠ "shorthand" && plainJson v && !(k == "mark" && isStr v) && cleanFields rest

mutual

/-- Size of a value, used as a sufficient fuel bound. -/
def vsize : Val → Nat
  | Val.vlist xs => 1 + vsizeL xs
  | Val.vdict xs => 1 + vsizeD xs
  | Val.vobj _ a k => 1 + vsizeL a + vsizeD k
  | _ => 1

/-- Size, list version (the constants give slack for the fuel of the
embedding: one unit per walker step). -/
def vsizeL : List Val → Nat
  | [] => 1
  | x :: xs => 2 + vsize x + vsizeL xs

/-- Size, dict entry version. -/
def vsizeD : List (String × Val) → Nat
  | [] => 1
  | (_, v) :: rest => 2 + vsize v + vsizeD rest

end

/-
Claim theorems.
-/

/-- A schema fragment that (incorrectly) references itself through the
root definitions. -/
def cyclicSchema : Val := Val.vdict [("$ref", Val.vstr "#/definitions/A")]

/-- A root schema whose definition `A` is the self-referencing
fragment. -/
def cyclicRoot : Val :=
  Val.vdict [("definitions", Val.vdict [("A", cyclicSchema)])]

/-- C2: the claim says resolution must not loop forever on a schema
whose reference chain is cyclic, failing with a `SchemaCycleError` or
capping depth.  The code has no such error and no cap: on the
self-referencing fragment, for every iteration budget the `while` loop
of `_resolve_references` is still at a `$ref` schema and never exits,
so the code hangs. -/
theorem resolve_references_cycle_never_terminates (fuel : Nat) :
    resolve_references fuel cyclicSchema cyclicRoot = none := by
  induction fuel with
  | zero => rfl
  | succ f ih =>
    have step : resolve_references (f + 1) cyclicSchema cyclicRoot =
        resolve_references f cyclicSchema cyclicRoot := rfl
    exact step.trans ih

/-- Unfolding of the containment test used by path subsetting and enum
deduplication. -/
theorem contained_iff (x : String) (values : List String) :
    contained_at_start_of_one_of_other_values x values = true ↔
      ∃ v ∈ values, x ≠ v ∧ strStarts x v = true := by
  simp [contained_at_start_of_one_of_other_values, List.any_eq_true,
    Bool.and_eq_true, decide_eq_true_iff]

/-- C7: after grouping by json path, a group is dropped exactly when its
path is a strict string-prefix (Python `startswith`, on a distinct path)
of another path in the grouping, and retained otherwise; in particular
with errors at `$.encoding.x` and `$.encoding.x.type` only the latter
group is retained. -/
theorem subset_to_most_specific_json_paths_spec :
    (∀ (grouped : List (String × List VErr)) (p : String) (es : List VErr),
      (p, es) ∈ subset_to_most_specific_json_paths grouped ↔
        ((p, es) ∈ grouped ∧
          ¬ ∃ q ∈ grouped.map Prod.fst, q ≠ p ∧ strStarts p q = true)) ∧
    subset_to_most_specific_json_paths
        [("$.encoding.x", [VErr.mk "$.encoding.x" "type" ["string"] "m1" none "" []]),
         ("$.encoding.x.type", [VErr.mk "$.encoding.x.type" "enum" ["a"] "m2" none "" []])] =
      [("$.encoding.x.type", [VErr.mk "$.encoding.x.type" "enum" ["a"] "m2" none "" []])] := by
  constructor
  · intro grouped p es
    rw [subset_to_most_specific_json_paths, List.mem_filter]
    have h := contained_iff p (grouped.map Prod.fst)
    constructor
    · rintro ⟨hmem, hcond⟩
      refine ⟨hmem, ?_⟩
      rintro ⟨q, hq, hne, hpre⟩
      have : contained_at_start_of_one_of_other_values p (grouped.map Prod.fst) = true :=
        h.mpr ⟨q, hq, fun hpq => hne hpq.symm, hpre⟩
      rw [this] at hcond
      exact Bool.noConfusion hcond
    · rintro ⟨hmem, hnex⟩
      refine ⟨hmem, ?_⟩
      cases hc : contained_at_start_of_one_of_other_values p (grouped.map Prod.fst) with
      | false => rfl
      | true =>
        obtain ⟨q, hq, hne, hpre⟩ := h.mp hc
        exact absurd ⟨q, hq, fun hpq => hne hpq.symm, hpre⟩ hnex
  · rfl

/-- An enum error allowing values A, B. -/
def enumErrAB : VErr := VErr.mk "$.a" "enum" ["A", "B"] "m1" none "" []

/-- An enum error at the same path allowing values A, B, C. -/
def enumErrABC : VErr := VErr.mk "$.a" "enum" ["A", "B", "C"] "m2" none "" []

/-- C6: within one json-path group, an enum error is dropped exactly
when its comma-joined allowed-value list is a strict prefix of another
enum error's comma-joined list (the subset comparison of the claim), so
only maximal allowed-value sets remain; in particular of the allowed
sets A,B and A,B,C at the same path only the A,B,C error is kept. -/
theorem deduplicate_enum_errors_spec :
    (∀ (errors : List VErr) (e : VErr),
      e ∈ deduplicate_enum_errors errors ↔
        (e ∈ errors ∧
          ¬ ∃ e2 ∈ errors,
              String.intercalate "," e.validator_value ≠
                String.intercalate "," e2.validator_value ∧
              strStarts (String.intercalate "," e.validator_value)
                (String.intercalate "," e2.validator_value) = true)) ∧
    deduplicate_enum_errors [enumErrAB, enumErrABC] = [enumErrABC] := by
  constructor
  · intro errors e
    by_cases hlen : errors.length > 1
    · rw [deduplicate_enum_errors, if_pos hlen, List.mem_filter]
      have h := contained_iff (String.intercalate "," e.validator_value)
        (errors.map (fun e2 => String.intercalate "," e2.validator_value))
      constructor
      · rintro ⟨hmem, hcond⟩
        refine ⟨hmem, ?_⟩
        rintro ⟨e2, he2, hne, hpre⟩
        have : contained_at_start_of_one_of_other_values
            (String.intercalate "," e.validator_value)
            (errors.map (fun e2 => String.intercalate "," e2.validator_value)) = true :=
          h.mpr ⟨String.intercalate "," e2.validator_value,
            List.mem_map_of_mem _ he2, hne, hpre⟩
        rw [this] at hcond
        exact Bool.noConfusion hcond
      · rintro ⟨hmem, hnex⟩
        refine ⟨hmem, ?_⟩
        cases hc : contained_at_start_of_one_of_other_values
            (String.intercalate "," e.validator_value)
            (errors.map (fun e2 => String.intercalate "," e2.validator_value)) with
        | false => rfl
        | true =>
          obtain ⟨v, hv, hne, hpre⟩ := h.mp hc
          obtain ⟨e2, he2, rfl⟩ := List.mem_map.mp hv
          exact absurd ⟨e2, he2, hne, hpre⟩ hnex
    · rw [deduplicate_enum_errors, if_neg hlen]
      match errors with
      | [] => simp
      | [e0] =>
        simp only [List.mem_singleton]
        constructor
        · rintro rfl
          refine ⟨rfl, ?_⟩
          rintro ⟨e2, he2, hne, _⟩
          subst he2
          exact hne rfl
        · rintro ⟨h1, _⟩
          exact h1
      | e0 :: e1 :: rest => exact absurd (by simp) hlen
  · rfl

/-- A concrete model instance: the external validator reports no
errors, every class is bound to the empty schema, shared root schema
empty, debug mode on (the module default). -/
def M0 : Model :=
  { oracle := fun _ _ _ => [], env := fun _ => Val.vdict [],
    root := Val.vdict [], debug := true }

/-- C9: constructing a wrapper instance with at least one positional
argument and at least one named field fails the constructor assertion
(the structural constraint of the spec), and serializing an instance
with both populated raises `ValueError` rather than producing output. -/
theorem mixed_construction_is_error (M : Model) (fuel c : Nat)
    (args : List Val) (kwds : List (String × Val))
    (hargs : args ≠ []) (hkwds : kwds ≠ []) :
    SchemaBase_init M fuel c args kwds = Except.error PyErr.assertionError ∧
    to_dict M (fuel + 1) c args kwds false [] = Except.error PyErr.valueError := by
  match args, hargs, kwds, hkwds with
  | a :: as, _, k :: ks, _ => exact ⟨rfl, rfl⟩

/-- C9 witness at a concrete mixed instance. -/
theorem mixed_construction_is_error_witness :
    SchemaBase_init M0 4 0 [Val.vnum 1] [("a", Val.vnum 2)] =
      Except.error PyErr.assertionError ∧
    to_dict M0 5 0 [Val.vnum 1] [("a", Val.vnum 2)] false [] =
      Except.error PyErr.valueError :=
  mixed_construction_is_error M0 4 0 [Val.vnum 1] [("a", Val.vnum 2)]
    (by simp) (by simp)

/-- C8 counterexample: the claim says invoking field writing on a
positionally-constructed instance is an error, but `__setattr__` writes
into `_kwds` unconditionally and succeeds, and only a later
serialization of the resulting mixed instance errors. -/
theorem setattr_on_positional_succeeds :
    SchemaBase_setattr (Val.vobj 0 [Val.vnum 1] []) "a" (Val.vnum 2) =
      Val.vobj 0 [Val.vnum 1] [("a", Val.vnum 2)] ∧
    to_dict M0 5 0 [Val.vnum 1] [("a", Val.vnum 2)] false [] =
      Except.error PyErr.valueError :=
  ⟨rfl, rfl⟩

/-- C8 (amended): reading a declared-but-unset field (stored as the
sentinel) yields `Undefined`, through attribute access and through
`_get`, and `_get` of an absent name also yields `Undefined`, never an
exception; an attribute read of a name absent from `_kwds` (in
particular, any field read on a positionally-constructed instance)
fails with `AttributeError`; writing however is never rejected:
`__setattr__` stores into `_kwds` unconditionally, also on a
positionally-constructed instance. -/
theorem field_access_spec (c : Nat) (args : List Val)
    (kwds : List (String × Val)) (attr : String) (v : Val) :
    (lookupD kwds attr = some Val.undef →
      SchemaBase_getattr (Val.vobj c args kwds) attr = Except.ok Val.undef ∧
      SchemaBase_get (Val.vobj c args kwds) attr Val.undef = Val.undef) ∧
    (lookupD kwds attr = none →
      SchemaBase_get (Val.vobj c args kwds) attr Val.undef = Val.undef ∧
      SchemaBase_getattr (Val.vobj c args kwds) attr =
        Except.error PyErr.attributeError) ∧
    SchemaBase_setattr (Val.vobj c args kwds) attr v =
      Val.vobj c args (setK kwds attr v) := by
  refine ⟨?_, ?_, rfl⟩
  · intro h
    exact ⟨by simp [SchemaBase_getattr, h], by simp [SchemaBase_get, h, isUndef]⟩
  · intro h
    exact ⟨by simp [SchemaBase_get, h], by simp [SchemaBase_getattr, h]⟩

/-- C8 witness at concrete instances: an unset field read through both
accessors, and a write on a positional instance. -/
theorem field_access_spec_witness :
    (SchemaBase_getattr (Val.vobj 0 [] [("a", Val.undef)]) "a" =
      Except.ok Val.undef) ∧
    (SchemaBase_get (Val.vobj 0 [] [("b", Val.vnum 1)]) "a" Val.undef =
      Val.undef) ∧
    (SchemaBase_setattr (Val.vobj 0 [Val.vnum 1] []) "a" (Val.vnum 2) =
      Val.vobj 0 [Val.vnum 1] (setK [] "a" (Val.vnum 2))) :=
  ⟨((field_access_spec 0 [] [("a", Val.undef)] "a" (Val.vnum 2)).1 rfl).1,
   ((field_access_spec 0 [] [("b", Val.vnum 1)] "a" (Val.vnum 2)).2.1 rfl).1,
   (field_access_spec 0 [Val.vnum 1] [] "a" (Val.vnum 2)).2.2⟩

/-- Mark promotion does not change the keys of the field mapping. -/
theorem markPromote_keys (kwds : List (String × Val)) :
    (markPromote kwds).map Prod.fst = kwds.map Prod.fst := by
  induction kwds with
  | nil => rfl
  | cons kv rest ih =>
    obtain ⟨k, v⟩ := kv
    cases v <;> simp [markPromote] at ih ⊢ <;>
      first
        | exact ih
        | (split <;> simpa using ih)

/-- The ignore/shorthand filter removes every `shorthand` key. -/
theorem filterIgnSh_no_shorthand (kwds : List (String × Val))
    (ignore : List String) :
    "shorthand" ∉ (filterIgnSh kwds ignore).map Prod.fst := by
  intro h
  obtain ⟨kv, hmem, hfst⟩ := List.mem_map.mp h
  rw [filterIgnSh, List.mem_filter] at hmem
  have hcond := hmem.2
  rw [Bool.and_eq_true] at hcond
  have := of_decide_eq_true hcond.2
  exact this hfst

/-- Canonicalizing dict entries keeps exactly the keys. -/
theorem todictEntries_keys (f : Nat) (xs ys : List (String × Val))
    (h : todictEntries f xs = Except.ok ys) :
    ys.map Prod.fst = xs.map Prod.fst := by
  induction xs generalizing f ys with
  | nil =>
    cases f with
    | zero => exact absurd h (by simp [todictEntries])
    | succ g =>
      rw [todictEntries] at h
      cases h
      rfl
  | cons kv rest ih =>
    obtain ⟨k, v⟩ := kv
    cases f with
    | zero => exact absurd h (by simp [todictEntries])
    | succ g =>
      rw [todictEntries] at h
      cases hw : todict g v with
      | error e => rw [hw] at h; exact absurd h (by simp [Bind.bind, Except.bind])
      | ok w =>
        rw [hw] at h
        cases hws : todictEntries g rest with
        | error e => rw [hws] at h; exact absurd h (by simp [Bind.bind, Except.bind])
        | ok ws =>
          rw [hws] at h
          simp only [Bind.bind, Except.bind, pure, Except.pure] at h
          cases h
          simp [ih g ws hws]

/-- C10: for a field-constructed instance, `to_dict` omits the key
`shorthand` from the output mapping unconditionally: whatever the
ignore list and whatever value the `shorthand` field holds. -/
theorem to_dict_omits_shorthand (M : Model) (fuel c : Nat)
    (kwds : List (String × Val)) (ignore : List String) (r : Val)
    (h : to_dict M fuel c [] kwds false ignore = Except.ok r) :
    ∃ entries, r = Val.vdict entries ∧ "shorthand" ∉ entries.map Prod.fst := by
  rw [to_dict] at h
  cases htc : toDictCore fuel c [] kwds ignore with
  | error e => rw [htc] at h; exact absurd h (by simp)
  | ok result =>
    rw [htc] at h
    simp only [Bool.false_eq_true, if_false] at h
    cases h
    cases fuel with
    | zero => exact absurd htc (by simp [toDictCore])
    | succ f =>
      rw [toDictCore] at htc
      cases hws : todictEntries f
          ((markPromote (filterIgnSh kwds ignore)).filter (fun kv => !isUndef kv.2)) with
      | error e =>
        rw [hws] at htc
        exact absurd htc (by simp [Bind.bind, Except.bind])
      | ok ws =>
        rw [hws] at htc
        simp only [Bind.bind, Except.bind, pure, Except.pure] at htc
        cases htc
        refine ⟨ws, rfl, ?_⟩
        intro hmem
        rw [todictEntries_keys f _ ws hws] at hmem
        obtain ⟨kv, hkv, hfst⟩ := List.mem_map.mp hmem
        have hkv2 := List.mem_of_mem_filter hkv
        have : "shorthand" ∈ (markPromote (filterIgnSh kwds ignore)).map Prod.fst :=
          hfst ▸ List.mem_map_of_mem _ hkv2
        rw [markPromote_keys] at this
        exact filterIgnSh_no_shorthand kwds ignore this

/-- C10 witness: a non-sentinel `shorthand` field, not in the ignore
list, is still omitted. -/
theorem to_dict_omits_shorthand_witness :
    ∃ entries, (Val.vdict [("a", Val.vnum 1)] : Val) = Val.vdict entries ∧
      "shorthand" ∉ entries.map Prod.fst :=
  to_dict_omits_shorthand M0 5 0 [("shorthand", Val.vstr "x"), ("a", Val.vnum 1)]
    [] (Val.vdict [("a", Val.vnum 1)]) rfl

/-- C3 counterexample: the claim says the canonical output of `to_dict`
never contains the sentinel anywhere, in mappings or sequences; but
`_todict` filters only dict entries, not sequence elements, so a field
holding a list with an `Undefined` element canonicalizes to an output
that still contains the sentinel. -/
theorem to_dict_output_contains_undefined :
    to_dict M0 5 0 [] [("a", Val.vlist [Val.undef])] false [] =
      Except.ok (Val.vdict [("a", Val.vlist [Val.undef])]) ∧
    containsUndef (Val.vdict [("a", Val.vlist [Val.undef])]) = true :=
  ⟨rfl, rfl⟩

/-- With unique keys, a membership gives the lookup result. -/
theorem lookupD_of_mem_nodup (l : List (String × Val)) (k : String) (v : Val)
    (hnd : (l.map Prod.fst).Nodup) (hm : (k, v) ∈ l) :
    lookupD l k = some v := by
  induction l with
  | nil => cases hm
  | cons kv rest ih =>
    obtain ⟨k2, v2⟩ := kv
    rw [List.map_cons, List.nodup_cons] at hnd
    cases List.mem_cons.mp hm with
    | inl heq =>
      cases heq
      simp [lookupD]
    | inr hmem =>
      by_cases hkk : k2 = k
      · subst hkk
        exact absurd (List.mem_map_of_mem Prod.fst hmem) hnd.1
      · rw [lookupD, if_neg hkk]
        exact ih hnd.2 hmem

/-- Every entry of the mark promotion comes from an entry with the same
key whose value it either keeps or which was a string. -/
theorem markPromote_mem (l : List (String × Val)) (kv : String × Val)
    (h : kv ∈ markPromote l) :
    ∃ kv0 ∈ l, kv.1 = kv0.1 ∧ (kv.2 = kv0.2 ∨ isStr kv0.2 = true) := by
  rw [markPromote] at h
  obtain ⟨kv0, hmem, heq⟩ := List.mem_map.mp h
  refine ⟨kv0, hmem, ?_⟩
  obtain ⟨k0, v0⟩ := kv0
  cases v0 with
  | vstr s =>
    have heq2 : (if k0 = "mark" then (k0, Val.vdict [("type", Val.vstr s)])
        else (k0, Val.vstr s)) = kv := heq
    by_cases hk : k0 = "mark"
    · rw [if_pos hk] at heq2
      cases heq2
      exact ⟨rfl, Or.inr rfl⟩
    · rw [if_neg hk] at heq2
      cases heq2
      exact ⟨rfl, Or.inl rfl⟩
  | undef => cases heq; exact ⟨rfl, Or.inl rfl⟩
  | vnull => cases heq; exact ⟨rfl, Or.inl rfl⟩
  | vbool b => cases heq; exact ⟨rfl, Or.inl rfl⟩
  | vnum n => cases heq; exact ⟨rfl, Or.inl rfl⟩
  | vlist xs => cases heq; exact ⟨rfl, Or.inl rfl⟩
  | vdict xs => cases heq; exact ⟨rfl, Or.inl rfl⟩
  | vobj c a w => cases heq; exact ⟨rfl, Or.inl rfl⟩

/-- C3 (amended): every named field whose value is the sentinel is
omitted from the output mapping of `to_dict` (the omission half of the
claim); the sentinel can however still occur deeper in the output,
inside sequences, since only mapping entries are filtered. -/
theorem to_dict_omits_undefined_fields (M : Model) (fuel c : Nat)
    (kwds : List (String × Val)) (ignore : List String) (r : Val) (k : String)
    (hnd : (kwds.map Prod.fst).Nodup)
    (hk : lookupD kwds k = some Val.undef)
    (h : to_dict M fuel c [] kwds false ignore = Except.ok r) :
    ∃ entries, r = Val.vdict entries ∧ k ∉ entries.map Prod.fst := by
  rw [to_dict] at h
  cases htc : toDictCore fuel c [] kwds ignore with
  | error e => rw [htc] at h; exact absurd h (by simp)
  | ok result =>
    rw [htc] at h
    simp only [Bool.false_eq_true, if_false] at h
    cases h
    cases fuel with
    | zero => exact absurd htc (by simp [toDictCore])
    | succ f =>
      rw [toDictCore] at htc
      cases hws : todictEntries f
          ((markPromote (filterIgnSh kwds ignore)).filter (fun kv => !isUndef kv.2)) with
      | error e =>
        rw [hws] at htc
        exact absurd htc (by simp [Bind.bind, Except.bind])
      | ok ws =>
        rw [hws] at htc
        simp only [Bind.bind, Except.bind, pure, Except.pure] at htc
        cases htc
        refine ⟨ws, rfl, ?_⟩
        intro hmem
        rw [todictEntries_keys f _ ws hws] at hmem
        obtain ⟨kv, hkv, hfst⟩ := List.mem_map.mp hmem
        rw [List.mem_filter] at hkv
        obtain ⟨⟨k0, v0⟩, hkv0, hfst0, hval⟩ := markPromote_mem _ kv hkv.1
        have hlk : lookupD kwds k0 = some v0 :=
          lookupD_of_mem_nodup kwds k0 v0 hnd (List.mem_of_mem_filter hkv0)
        have h1 : kv.1 = k0 := hfst0
        have hk0 : k0 = k := by rw [← h1]; exact hfst
        rw [hk0, hk] at hlk
        have hv0 : v0 = Val.undef := (Option.some.inj hlk).symm
        cases hval with
        | inl hsame =>
          rw [hsame, hv0] at hkv
          exact Bool.noConfusion hkv.2
        | inr hstr =>
          rw [hv0] at hstr
          exact Bool.noConfusion hstr

/-- C3 witness at a concrete instance: a sentinel-valued field is
omitted from the output mapping. -/
theorem to_dict_omits_undefined_fields_witness :
    ∃ entries, (Val.vdict [("b", Val.vnum 1)] : Val) = Val.vdict entries ∧
      "a" ∉ entries.map Prod.fst :=
  to_dict_omits_undefined_fields M0 5 0 [("a", Val.undef), ("b", Val.vnum 1)]
    [] (Val.vdict [("b", Val.vnum 1)]) "a" (by simp) rfl rfl

/-- The single raw error the jsonschema library reports for a schema
declaring `"required": ["value"]` against a mapping missing that key. -/
def requiredValueErr : VErr :=
  VErr.mk "$" "required" ["value"] "value is a required property" none "" []

/-- A model whose external validator reports exactly that lone
required-value error for every validation. -/
def M1 : Model :=
  { oracle := fun _ _ _ => [requiredValueErr], env := fun _ => Val.vdict [],
    root := Val.vdict [], debug := false }

/-- C4: the claim (and the docstring of `validate_jsonschema`) says a
failed validation surfaces as a raised `SchemaValidationError` wrapping
the consolidated diagnostic.  But when the only raw error is the
required-value false positive, `_deduplicate_errors` empties the sole
group and `list(grouped_errors.values())[0][0]` raises an `IndexError`,
which `to_dict` does not catch (its `except` only covers
`ValidationError`), so the caller sees a raw `IndexError` instead of a
`SchemaValidationError`. -/
theorem to_dict_validate_index_error :
    to_dict M1 5 0 [] [] true [] = Except.error PyErr.indexError := rfl

/-- The `anyOf` loop hits the first validating alternative when all
earlier alternatives fail with an ordinarily-raised `ValidationError`. -/
theorem fromDictBranches_first (M : Model) (reg : List (Val × List Nat))
    (dct root : Val) (cls : Option Nat) :
    ∀ (branches : List Val) (f i : Nat) (hi : i < branches.length),
      i < f →
      validate_jsonschema M dct (branches.get ⟨i, hi⟩) root = Except.ok () →
      (∀ j (hj : j < i), ∃ main grouped,
        validate_jsonschema M dct (branches.get ⟨j, Nat.lt_trans hj hi⟩) root =
          Except.error (PyErr.validationError main grouped)) →
      fromDictBranches M reg f dct root cls branches =
        some (from_dict M reg (f - i - 1) dct none
          (some (branches.get ⟨i, hi⟩)) (some root) cls) := by
  intro branches
  induction branches with
  | nil => intro f i hi; exact absurd hi (by simp)
  | cons s rest ih =>
    intro f i hi hfu hval hprev
    match f, hfu with
    | g + 1, _ =>
      cases i with
      | zero =>
        rw [fromDictBranches]
        have hs : (s :: rest).get ⟨0, hi⟩ = s := rfl
        rw [hs] at hval
        rw [hval]
        simp
      | succ i2 =>
        obtain ⟨main, grouped, h0⟩ := hprev 0 (Nat.succ_pos i2)
        have hs : (s :: rest).get ⟨0, Nat.lt_trans (Nat.succ_pos i2) hi⟩ = s := rfl
        rw [hs] at h0
        rw [fromDictBranches, h0]
        have hi2 : i2 < rest.length := by
          have := hi
          simp only [List.length_cons] at this
          omega
        have hg : i2 < g := by omega
        have hget : (s :: rest).get ⟨i2 + 1, hi⟩ = rest.get ⟨i2, hi2⟩ := rfl
        have hval2 : validate_jsonschema M dct (rest.get ⟨i2, hi2⟩) root =
            Except.ok () := by rw [← hget]; exact hval
        have hprev2 : ∀ j (hj : j < i2), ∃ main2 grouped2,
            validate_jsonschema M dct (rest.get ⟨j, Nat.lt_trans hj hi2⟩) root =
              Except.error (PyErr.validationError main2 grouped2) := by
          intro j hj
          obtain ⟨m2, g2, hjv⟩ := hprev (j + 1) (by omega)
          refine ⟨m2, g2, ?_⟩
          have : (s :: rest).get ⟨j + 1, Nat.lt_trans (by omega) hi⟩ =
              rest.get ⟨j, Nat.lt_trans hj hi2⟩ := rfl
          rw [← this]
          exact hjv
        rw [ih g i2 hi2 hg hval2 hprev2]
        have harith : g + 1 - (i2 + 1) - 1 = g - i2 - 1 := by omega
        rw [harith, hget]

/-- A step of `from_dict` once a union alternative is hit: with a
non-instance value and a reference-free schema, the result is whatever
the alternative loop produced. -/
theorem fromDictBody_branch_hit (M : Model) (reg : List (Val × List Nat))
    (f : Nat) (dct schema root : Val) (dflt : Option Nat)
    (r : Except PyErr Val)
    (hobj : isObjV dct = false) (href : sGet schema "$ref" = none)
    (hb : fromDictBranches M reg f dct root
        (match regLookup reg (hash_schema schema) with
         | c :: _ => some c
         | [] => dflt)
        (sGetL schema "anyOf" ++ sGetL schema "oneOf") = some r) :
    fromDictBody M reg (f + 1) dct none schema root dflt = r := by
  rw [fromDictBody, hobj]
  simp only [Bool.false_eq_true, if_false]
  have hres : resolve_references f schema root = some schema := by
    rw [resolve_references, href]
  rw [hres]
  simp only [hb]

/-- C5 (amended): when the resolved schema declares `anyOf`/`oneOf`,
`from_dict` tries the alternatives in schema order and reconstructs the
value by recursing with the first validating alternative as schema and
the current class match as the new default class — never a later one —
provided each earlier alternative fails validation with the normally
raised `ValidationError`; an earlier alternative whose raw errors are
all consolidated away instead makes the `IndexError` of the
consolidation bug propagate out of `from_dict`. -/
theorem from_dict_union_first_match (M : Model) (reg : List (Val × List Nat))
    (f : Nat) (dct schema root : Val) (dflt : Option Nat)
    (branches : List Val) (i : Nat) (hi : i < branches.length)
    (hobj : isObjV dct = false)
    (href : sGet schema "$ref" = none)
    (hbr : sGetL schema "anyOf" ++ sGetL schema "oneOf" = branches)
    (hfuel : i < f)
    (hval : validate_jsonschema M dct (branches.get ⟨i, hi⟩) root = Except.ok ())
    (hprev : ∀ j (hj : j < i), ∃ main grouped,
      validate_jsonschema M dct (branches.get ⟨j, Nat.lt_trans hj hi⟩) root =
        Except.error (PyErr.validationError main grouped)) :
    from_dict M reg (f + 2) dct none (some schema) (some root) dflt =
      from_dict M reg (f - i - 1) dct none (some (branches.get ⟨i, hi⟩))
        (some root)
        (match regLookup reg (hash_schema schema) with
         | c :: _ => some c
         | [] => dflt) := by
  have hstep : from_dict M reg (f + 2) dct none (some schema) (some root) dflt =
      fromDictBody M reg (f + 1) dct none schema root dflt := rfl
  rw [hstep]
  have hbranches : fromDictBranches M reg f dct root
      (match regLookup reg (hash_schema schema) with
       | c :: _ => some c
       | [] => dflt)
      (sGetL schema "anyOf" ++ sGetL schema "oneOf") =
      some (from_dict M reg (f - i - 1) dct none (some (branches.get ⟨i, hi⟩))
        (some root)
        (match regLookup reg (hash_schema schema) with
         | c :: _ => some c
         | [] => dflt)) := by
    rw [hbr]
    exact fromDictBranches_first M reg dct root _ branches f i hi hfuel hval hprev
  exact fromDictBody_branch_hit M reg f dct schema root dflt _ hobj href hbranches

/-- The raw type error reported against the string alternative. -/
def typeStrErr : VErr :=
  VErr.mk "$" "type" ["string"] "1 is not of type string" none "" []

/-- The alternative requiring a string. -/
def sStr : Val := Val.vdict [("type", Val.vstr "string")]

/-- The alternative requiring a number. -/
def sNum : Val := Val.vdict [("type", Val.vstr "number")]

/-- A union schema with the string alternative before the number one. -/
def unionSchema : Val := Val.vdict [("anyOf", Val.vlist [sStr, sNum])]

/-- A model whose external validator rejects the string alternative
with one type error and accepts everything else. -/
def M2 : Model :=
  { oracle := fun _ sch _ => if vbeq sch sStr then [typeStrErr] else [],
    env := fun _ => Val.vdict [], root := Val.vdict [], debug := false }

/-- C5 witness: the number `1` fails the first alternative and matches
the second, so `from_dict` recurses with the second alternative. -/
theorem from_dict_union_first_match_witness :
    from_dict M2 [] 7 (Val.vnum 1) none (some unionSchema)
        (some (Val.vdict [])) none =
      from_dict M2 [] 3 (Val.vnum 1) none (some sNum)
        (some (Val.vdict [])) none := by
  have h := from_dict_union_first_match M2 [] 5 (Val.vnum 1) unionSchema
    (Val.vdict []) none [sStr, sNum] 1 (by decide) rfl rfl rfl (by decide) rfl
    (fun j hj => by
      match j, hj with
      | 0, _ => exact ⟨typeStrErr, [("$", [typeStrErr])], rfl⟩)
  exact h

/-- The alternative requiring only the key `value`. -/
def sReq : Val := Val.vdict [("required", Val.vlist [Val.vstr "value"])]

/-- The alternative requiring an object. -/
def sObj : Val := Val.vdict [("type", Val.vstr "object")]

/-- A union schema with the required-value alternative first. -/
def unionSchemaReq : Val := Val.vdict [("anyOf", Val.vlist [sReq, sObj])]

/-- A model whose external validator rejects the required-value
alternative with exactly the lone required-value error and accepts
everything else. -/
def M3 : Model :=
  { oracle := fun _ sch _ => if vbeq sch sReq then [requiredValueErr] else [],
    env := fun _ => Val.vdict [], root := Val.vdict [], debug := false }

/-- C5 counterexample: the empty mapping validates against the second
alternative, so by the claim `from_dict` should reconstruct against it;
but while rejecting the first alternative the consolidation empties the
error group, and the resulting `IndexError` is not caught by the loop
(which only catches `ValidationError`), so `from_dict` crashes instead
of selecting the validating alternative. -/
theorem from_dict_union_crash :
    validate_jsonschema M3 (Val.vdict []) sObj (Val.vdict []) = Except.ok () ∧
    from_dict M3 [] 7 (Val.vdict []) none (some unionSchemaReq)
        (some (Val.vdict [])) none = Except.error PyErr.indexError :=
  ⟨rfl, rfl⟩

/-- Values have positive size. -/
theorem vsize_pos (v : Val) : 1 ≤ vsize v := by
  cases v <;> first | (simp [vsize]; omega) | simp [vsize]

/-- Value lists have positive size. -/
theorem vsizeL_pos (xs : List Val) : 1 ≤ vsizeL xs := by
  cases xs <;> first | (simp [vsizeL]; omega) | simp [vsizeL]

/-- Entry lists have positive size. -/
theorem vsizeD_pos (xs : List (String × Val)) : 1 ≤ vsizeD xs := by
  cases xs <;> first | (simp [vsizeD]; omega) | simp [vsizeD]

/-- A plain JSON value is not the sentinel. -/
theorem plainJson_not_undef (v : Val) (h : plainJson v = true) :
    isUndef v = false := by
  cases v <;> first | rfl | exact Bool.noConfusion h

/-- A plain JSON value is not a wrapper instance. -/
theorem plainJson_not_obj (v : Val) (h : plainJson v = true) :
    isObjV v = false := by
  cases v <;> first | rfl | exact Bool.noConfusion h

/-- Clean fields hold plain JSON values. -/
theorem cleanFields_plainJsonD (kwds : List (String × Val))
    (h : cleanFields kwds = true) : plainJsonD kwds = true := by
  induction kwds with
  | nil => rfl
  | cons kv rest ih =>
    obtain ⟨k, v⟩ := kv
    rw [cleanFields] at h
    rw [Bool.and_eq_true, Bool.and_eq_true, Bool.and_eq_true] at h
    rw [plainJsonD, Bool.and_eq_true]
    exact ⟨h.1.1.2, ih h.2⟩

/-- Clean fields pass the ignore/shorthand filter unchanged (with the
default empty ignore list). -/
theorem cleanFields_filterIgnSh (kwds : List (String × Val))
    (h : cleanFields kwds = true) : filterIgnSh kwds [] = kwds := by
  induction kwds with
  | nil => rfl
  | cons kv rest ih =>
    obtain ⟨k, v⟩ := kv
    rw [cleanFields] at h
    rw [Bool.and_eq_true, Bool.and_eq_true, Bool.and_eq_true] at h
    have hk : (k ≠ "shorthand") = true := by
      have := h.1.1.1
      simpa using this
    rw [filterIgnSh] at ih ⊢
    rw [List.filter_cons]
    rw [ih h.2]
    simp [hk]

/-- Clean fields are untouched by the mark promotion (no string-valued
`mark` field). -/
theorem cleanFields_markPromote (kwds : List (String × Val))
    (h : cleanFields kwds = true) : markPromote kwds = kwds := by
  induction kwds with
  | nil => rfl
  | cons kv rest ih =>
    obtain ⟨k, v⟩ := kv
    rw [cleanFields] at h
    rw [Bool.and_eq_true, Bool.and_eq_true, Bool.and_eq_true] at h
    rw [markPromote, List.map_cons]
    have hrest : markPromote rest = rest := ih h.2
    rw [markPromote] at hrest
    rw [hrest]
    cases v with
    | vstr s =>
      have hmark := h.1.2
      have : (k == "mark") = false := by
        cases hb : k == "mark" with
        | false => rfl
        | true =>
          rw [hb] at hmark
          exact Bool.noConfusion hmark
      have hne : ¬ k = "mark" := by
        intro hkm
        rw [hkm] at this
        simp at this
      simp only [if_neg hne]
    | undef => rfl
    | vnull => rfl
    | vbool b => rfl
    | vnum n => rfl
    | vlist xs => rfl
    | vdict xs => rfl
    | vobj c a w => rfl

/-- Plain entries are untouched by the sentinel filter. -/
theorem plainJsonD_filter_undef (kwds : List (String × Val))
    (h : plainJsonD kwds = true) :
    kwds.filter (fun kv => !isUndef kv.2) = kwds := by
  induction kwds with
  | nil => rfl
  | cons kv rest ih =>
    obtain ⟨k, v⟩ := kv
    rw [plainJsonD, Bool.and_eq_true] at h
    rw [List.filter_cons]
    rw [ih h.2]
    simp [plainJson_not_undef v h.1]

/-- A simple schema has no entry for `$ref`, `anyOf` or `oneOf`. -/
theorem simpleEntries_no_key (xs : List (String × Val)) (key : String)
    (hkey : key = "$ref" ∨ key = "anyOf" ∨ key = "oneOf")
    (h : simpleEntries xs = true) : lookupD xs key = none := by
  induction xs with
  | nil => rfl
  | cons kv rest ih =>
    obtain ⟨k, v⟩ := kv
    rw [simpleEntries] at h
    rw [Bool.and_eq_true, Bool.and_eq_true] at h
    have hk := h.1.1
    rw [lookupD]
    have hne : ¬ k = key := by
      intro hkk
      subst hkk
      rcases hkey with h1 | h1 | h1 <;> rw [h1] at hk <;>
        simp_all
    rw [if_neg hne]
    exact ih h.2

/-- A simple schema has empty `anyOf` and `oneOf` alternative lists. -/
theorem simpleSch_no_union (s : Val) (h : simpleSch s = true) :
    sGet s "$ref" = none ∧ sGetL s "anyOf" = [] ∧ sGetL s "oneOf" = [] := by
  cases s with
  | vdict xs =>
    rw [simpleSch] at h
    refine ⟨?_, ?_, ?_⟩
    · exact simpleEntries_no_key xs "$ref" (Or.inl rfl) h
    · rw [sGetL]
      rw [show sGet (Val.vdict xs) "anyOf" = lookupD xs "anyOf" from rfl]
      rw [simpleEntries_no_key xs "anyOf" (Or.inr (Or.inl rfl)) h]
    · rw [sGetL]
      rw [show sGet (Val.vdict xs) "oneOf" = lookupD xs "oneOf" from rfl]
      rw [simpleEntries_no_key xs "oneOf" (Or.inr (Or.inr rfl)) h]
  | undef => exact ⟨rfl, rfl, rfl⟩
  | vnull => exact ⟨rfl, rfl, rfl⟩
  | vbool b => exact ⟨rfl, rfl, rfl⟩
  | vnum n => exact ⟨rfl, rfl, rfl⟩
  | vstr t => exact ⟨rfl, rfl, rfl⟩
  | vlist xs => exact ⟨rfl, rfl, rfl⟩
  | vobj c a w => exact ⟨rfl, rfl, rfl⟩

/-- In a simple schema, the value stored under `properties` passes the
property-schema check. -/
theorem simpleEntries_props (xs : List (String × Val)) (v : Val)
    (h : simpleEntries xs = true) (hl : lookupD xs "properties" = some v) :
    propsSimple v = true := by
  induction xs with
  | nil => exact Option.noConfusion hl
  | cons kv rest ih =>
    obtain ⟨k, w⟩ := kv
    rw [simpleEntries] at h
    rw [Bool.and_eq_true, Bool.and_eq_true] at h
    rw [lookupD] at hl
    by_cases hk : k = "properties"
    · rw [if_pos hk] at hl
      cases hl
      have := h.1.2
      rw [if_pos hk] at this
      exact this
    · rw [if_neg hk] at hl
      exact ih h.2 hl

/-- In a simple schema, the value stored under `items` is simple. -/
theorem simpleEntries_items (xs : List (String × Val)) (v : Val)
    (h : simpleEntries xs = true) (hl : lookupD xs "items" = some v) :
    simpleSch v = true := by
  induction xs with
  | nil => exact Option.noConfusion hl
  | cons kv rest ih =>
    obtain ⟨k, w⟩ := kv
    rw [simpleEntries] at h
    rw [Bool.and_eq_true, Bool.and_eq_true] at h
    rw [lookupD] at hl
    by_cases hk : k = "items"
    · rw [if_pos hk] at hl
      cases hl
      have hthis := h.1.2
      have hki : ¬ k = "properties" := by
        subst hk
        decide
      rw [if_neg hki, if_pos hk] at hthis
      exact hthis
    · rw [if_neg hk] at hl
      exact ih h.2 hl

/-- Each declared property schema of a simple schema is simple. -/
theorem propsSimpleL_lookup (props : List (String × Val)) (k : String)
    (sub : Val) (h : propsSimpleL props = true)
    (hl : lookupD props k = some sub) : simpleSch sub = true := by
  induction props with
  | nil => exact Option.noConfusion hl
  | cons kv rest ih =>
    obtain ⟨k2, w⟩ := kv
    rw [propsSimpleL, Bool.and_eq_true] at h
    rw [lookupD] at hl
    by_cases hk : k2 = k
    · rw [if_pos hk] at hl
      cases hl
      exact h.1
    · rw [if_neg hk] at hl
      exact ih h.2 hl

/-- The property sub-schemas of a simple schema are simple. -/
theorem simpleSch_props (s : Val) (k : String) (sub : Val)
    (h : simpleSch s = true)
    (hl : lookupD (sGetD s "properties") k = some sub) :
    simpleSch sub = true := by
  cases s with
  | vdict xs =>
    rw [simpleSch] at h
    rw [sGetD] at hl
    cases hp : sGet (Val.vdict xs) "properties" with
    | none => rw [hp] at hl; exact Option.noConfusion hl
    | some pv =>
      rw [hp] at hl
      have hpv : propsSimple pv = true := simpleEntries_props xs pv h hp
      cases pv with
      | vdict props =>
        rw [propsSimple] at hpv
        exact propsSimpleL_lookup props k sub hpv hl
      | undef => exact Option.noConfusion hl
      | vnull => exact Option.noConfusion hl
      | vbool b => exact Option.noConfusion hl
      | vnum n => exact Option.noConfusion hl
      | vstr t => exact Option.noConfusion hl
      | vlist ys => exact Option.noConfusion hl
      | vobj c a w => exact Option.noConfusion hl
  | undef => exact Option.noConfusion hl
  | vnull => exact Option.noConfusion hl
  | vbool b => exact Option.noConfusion hl
  | vnum n => exact Option.noConfusion hl
  | vstr t => exact Option.noConfusion hl
  | vlist xs => exact Option.noConfusion hl
  | vobj c a w => exact Option.noConfusion hl

/-- The items sub-schema of a simple schema is simple. -/
theorem simpleSch_items (s : Val) (h : simpleSch s = true) :
    simpleSch (match sGet s "items" with
      | some t => t
      | none => Val.vdict []) = true := by
  cases hi : sGet s "items" with
  | none => rfl
  | some t =>
    cases s with
    | vdict xs =>
      rw [simpleSch] at h
      rw [show sGet (Val.vdict xs) "items" = lookupD xs "items" from rfl] at hi
      exact simpleEntries_items xs t h hi
    | undef => exact Option.noConfusion hi
    | vnull => exact Option.noConfusion hi
    | vbool b => exact Option.noConfusion hi
    | vnum n => exact Option.noConfusion hi
    | vstr t2 => exact Option.noConfusion hi
    | vlist xs => exact Option.noConfusion hi
    | vobj c a w => exact Option.noConfusion hi

/-- Canonicalization is the identity on plain JSON values (with enough
fuel): `_todict` descends through lists and dicts and returns scalars
unchanged, and plain values contain no sentinel to drop and no wrapper
to recurse into. -/
theorem todict_plain : ∀ f : Nat,
    (∀ v, plainJson v = true → vsize v ≤ f → todict f v = Except.ok v) ∧
    (∀ xs, plainJsonL xs = true → vsizeL xs ≤ f → todictL f xs = Except.ok xs) ∧
    (∀ xs, plainJsonD xs = true → vsizeD xs ≤ f →
      todictEntries f xs = Except.ok xs) := by
  intro f
  induction f with
  | zero =>
    refine ⟨?_, ?_, ?_⟩
    · intro v _ hs
      exact absurd hs (by have := vsize_pos v; omega)
    · intro xs _ hs
      exact absurd hs (by have := vsizeL_pos xs; omega)
    · intro xs _ hs
      exact absurd hs (by have := vsizeD_pos xs; omega)
  | succ g IH =>
    refine ⟨?_, ?_, ?_⟩
    · intro v hp hs
      cases v with
      | undef => exact Bool.noConfusion hp
      | vobj c a w => exact Bool.noConfusion hp
      | vnull => rfl
      | vbool b => rfl
      | vnum n => rfl
      | vstr s => rfl
      | vlist xs =>
        rw [todict]
        have hp2 : plainJsonL xs = true := hp
        have hs2 : vsizeL xs ≤ g := by
          rw [show vsize (Val.vlist xs) = 1 + vsizeL xs from rfl] at hs
          omega
        rw [IH.2.1 xs hp2 hs2]
        rfl
      | vdict xs =>
        rw [todict]
        have hp2 : plainJsonD xs = true := hp
        have hs2 : vsizeD xs ≤ g := by
          rw [show vsize (Val.vdict xs) = 1 + vsizeD xs from rfl] at hs
          omega
        rw [plainJsonD_filter_undef xs hp2]
        rw [IH.2.2 xs hp2 hs2]
        rfl
    · intro xs hp hs
      cases xs with
      | nil => rfl
      | cons x rest =>
        rw [plainJsonL, Bool.and_eq_true] at hp
        rw [show vsizeL (x :: rest) = 2 + vsize x + vsizeL rest from rfl] at hs
        have h1 : vsize x ≤ g := by have := vsizeL_pos rest; omega
        have h2 : vsizeL rest ≤ g := by have := vsize_pos x; omega
        rw [todictL]
        rw [IH.1 x hp.1 h1, IH.2.1 rest hp.2 h2]
        rfl
    · intro xs hp hs
      cases xs with
      | nil => rfl
      | cons kv rest =>
        obtain ⟨k, v⟩ := kv
        rw [plainJsonD, Bool.and_eq_true] at hp
        rw [show vsizeD ((k, v) :: rest) = 2 + vsize v + vsizeD rest from rfl] at hs
        have h1 : vsize v ≤ g := by have := vsizeD_pos rest; omega
        have h2 : vsizeD rest ≤ g := by have := vsize_pos v; omega
        rw [todictEntries]
        rw [IH.1 v hp.1 h1, IH.2.2 rest hp.2 h2]
        rfl

/-- The canonicalization half of the clean round trip:
`to_dict(validate=False)` of clean fields is the field mapping itself. -/
theorem to_dict_clean (M : Model) (f c : Nat) (kwds : List (String × Val))
    (hclean : cleanFields kwds = true) (hf : vsizeD kwds < f) :
    to_dict M f c [] kwds false [] = Except.ok (Val.vdict kwds) := by
  cases f with
  | zero => exact absurd hf (by omega)
  | succ g =>
    have hp : plainJsonD kwds = true := cleanFields_plainJsonD kwds hclean
    have hcore : toDictCore (g + 1) c [] kwds [] = Except.ok (Val.vdict kwds) := by
      rw [toDictCore]
      rw [cleanFields_filterIgnSh kwds hclean, cleanFields_markPromote kwds hclean]
      rw [plainJsonD_filter_undef kwds hp]
      rw [(todict_plain g).2.2 kwds hp (by omega)]
      rfl
    rw [to_dict, hcore]
    rfl

/-- A step of `from_dict` when no union alternative is declared: with a
non-instance value and a schema free of `$ref`/`anyOf`/`oneOf` at top
level, the body falls through to the mapping/sequence/scalar cases. -/
theorem fromDictBody_fallthrough (M : Model) (reg : List (Val × List Nat))
    (H : Nat) (dct schema root : Val) (clsArg dflt : Option Nat)
    (hobj : isObjV dct = false) (href : sGet schema "$ref" = none)
    (hany : sGetL schema "anyOf" = []) (hone : sGetL schema "oneOf" = []) :
    fromDictBody M reg (H + 1 + 1) dct clsArg schema root dflt =
      (let cls : Option Nat :=
        match clsArg with
        | some c => some c
        | none =>
          match regLookup reg (hash_schema schema) with
          | c :: _ => some c
          | [] => dflt
       match dct with
       | Val.vdict entries => do
         let kwds ← fromDictEntries M reg (H + 1) (sGetD schema "properties")
           root entries
         constructK M (H + 1) cls kwds
       | Val.vlist xs => do
         let ys ← fromDictItems M reg (H + 1)
           (match sGet schema "items" with
            | some t => t
            | none => Val.vdict []) root xs
         constructA M (H + 1) cls (Val.vlist ys)
       | x => constructA M (H + 1) cls x) := by
  have hres : resolve_references (H + 1) schema root = some schema := by
    rw [resolve_references, href]
  cases dct <;>
    first
      | exact Bool.noConfusion hobj
      | (rw [fromDictBody.eq_def]
         simp only []
         rw [hres]
         simp only [hany, hone, List.append_nil]
         rfl)

/-- Reconstruction is the identity on plain JSON values against simple
schemas with an empty registry: every nested `from_dict` uses
`_passthrough`, so mappings, sequences and scalars come back unchanged. -/
theorem from_dict_plain (M : Model) (root : Val) : ∀ f : Nat,
    (∀ v s, plainJson v = true → simpleSch s = true → vsize v + 2 ≤ f →
      from_dict M [] f v none (some s) (some root) none = Except.ok v) ∧
    (∀ (entries props : List (String × Val)),
      plainJsonD entries = true →
      (∀ k sub, lookupD props k = some sub → simpleSch sub = true) →
      vsizeD entries ≤ f →
      fromDictEntries M [] f props root entries = Except.ok entries) ∧
    (∀ (xs : List Val) (t : Val),
      plainJsonL xs = true → simpleSch t = true → vsizeL xs ≤ f →
      fromDictItems M [] f t root xs = Except.ok xs) := by
  intro f
  induction f using Nat.strong_induction_on with
  | _ f IH =>
    refine ⟨?_, ?_, ?_⟩
    · intro v s hp hs hsz
      have hv1 := vsize_pos v
      obtain ⟨H, rfl⟩ : ∃ H, f = H + 3 := ⟨f - 3, by omega⟩
      have hstep : from_dict M [] (H + 3) v none (some s) (some root) none =
          fromDictBody M [] (H + 1 + 1) v none s root none := rfl
      rw [hstep]
      obtain ⟨href, hany, hone⟩ := simpleSch_no_union s hs
      rw [fromDictBody_fallthrough M [] H v s root none none
        (plainJson_not_obj v hp) href hany hone]
      cases v with
      | undef => exact Bool.noConfusion hp
      | vobj c a w => exact Bool.noConfusion hp
      | vnull => rfl
      | vbool b => rfl
      | vnum n => rfl
      | vstr s2 => rfl
      | vlist xs =>
        have hp2 : plainJsonL xs = true := hp
        have hsz2 : vsizeL xs ≤ H + 1 := by
          rw [show vsize (Val.vlist xs) = 1 + vsizeL xs from rfl] at hsz
          omega
        have hitems := (IH (H + 1) (by omega)).2.2 xs
          (match sGet s "items" with
           | some t => t
           | none => Val.vdict []) hp2 (simpleSch_items s hs) hsz2
        simp only [hitems]
        rfl
      | vdict entries =>
        have hp2 : plainJsonD entries = true := hp
        have hsz2 : vsizeD entries ≤ H + 1 := by
          rw [show vsize (Val.vdict entries) = 1 + vsizeD entries from rfl] at hsz
          omega
        have hentries := (IH (H + 1) (by omega)).2.1 entries
          (sGetD s "properties") hp2
          (fun k sub hl => simpleSch_props s k sub hs hl) hsz2
        simp only [hentries]
        rfl
    · intro entries props hp hprops hsz
      cases entries with
      | nil =>
        have h1 : vsizeD ([] : List (String × Val)) = 1 := rfl
        obtain ⟨H, rfl⟩ : ∃ H, f = H + 1 := ⟨f - 1, by omega⟩
        rfl
      | cons kv rest =>
        obtain ⟨k, v⟩ := kv
        rw [plainJsonD, Bool.and_eq_true] at hp
        rw [show vsizeD ((k, v) :: rest) = 2 + vsize v + vsizeD rest from rfl] at hsz
        have hrp := vsizeD_pos rest
        have hv1 := vsize_pos v
        obtain ⟨H, rfl⟩ : ∃ H, f = H + 1 := ⟨f - 1, by omega⟩
        have hH : H < H + 1 := by omega
        have hrest := (IH H hH).2.1 rest props hp.2 hprops (by omega)
        rw [fromDictEntries]
        cases hl : lookupD props k with
        | none =>
          simp only [hl, hrest]
          rfl
        | some sub =>
          have hx := (IH H hH).1 v sub hp.1 (hprops k sub hl) (by omega)
          simp only [hl, hx, hrest]
          rfl
    · intro xs t hp ht hsz
      cases xs with
      | nil =>
        have h1 : vsizeL ([] : List Val) = 1 := rfl
        obtain ⟨H, rfl⟩ : ∃ H, f = H + 1 := ⟨f - 1, by omega⟩
        rfl
      | cons x rest =>
        rw [plainJsonL, Bool.and_eq_true] at hp
        rw [show vsizeL (x :: rest) = 2 + vsize x + vsizeL rest from rfl] at hsz
        have hrp := vsizeL_pos rest
        have hx1 := vsize_pos x
        obtain ⟨H, rfl⟩ : ∃ H, f = H + 1 := ⟨f - 1, by omega⟩
        have hH : H < H + 1 := by omega
        have hrest := (IH H hH).2.2 rest t hp.2 ht (by omega)
        have hx := (IH H hH).1 x t hp.1 ht (by omega)
        rw [fromDictItems]
        rw [hx, hrest]
        rfl

/-- The reconstruction half of the clean round trip: `from_dict` with
the instance's class on the canonical field mapping rebuilds the
instance. -/
theorem from_dict_clean (M : Model) (c : Nat) (kwds : List (String × Val))
    (f : Nat) (hclean : cleanFields kwds = true)
    (hschema : simpleSch (M.env c) = true) (hdebug : M.debug = false)
    (hf : vsizeD kwds + 2 ≤ f) :
    from_dict M [] f (Val.vdict kwds) (some c) none none none =
      Except.ok (Val.vobj c [] kwds) := by
  have hd1 := vsizeD_pos kwds
  obtain ⟨H, rfl⟩ : ∃ H, f = H + 3 := ⟨f - 3, by omega⟩
  have hstep : from_dict M [] (H + 3) (Val.vdict kwds) (some c) none none none =
      fromDictBody M [] (H + 1 + 1) (Val.vdict kwds) (some c) (M.env c)
        M.root none := rfl
  rw [hstep]
  obtain ⟨href, hany, hone⟩ := simpleSch_no_union (M.env c) hschema
  rw [fromDictBody_fallthrough M [] H (Val.vdict kwds) (M.env c) M.root
    (some c) none rfl href hany hone]
  have hp : plainJsonD kwds = true := cleanFields_plainJsonD kwds hclean
  have hentries := (from_dict_plain M M.root (H + 1)).2.1 kwds
    (sGetD (M.env c) "properties") hp
    (fun k sub hl => simpleSch_props (M.env c) k sub hschema hl) (by omega)
  simp only [hentries]
  show SchemaBase_init M (H + 1) c [] kwds = Except.ok (Val.vobj c [] kwds)
  cases kwds with
  | nil =>
    rw [SchemaBase_init]
    simp [hdebug]
  | cons kv rest =>
    rw [SchemaBase_init]
    simp [hdebug]

/-- C1 (amended): the round trip holds for a field-constructed instance
whose fields are clean (no `shorthand` key, no sentinel value, no
string-valued `mark`, only plain canonical JSON values), whose class
schema is free of `$ref` and union alternatives throughout, with an
empty wrapper registry (so nested values reconstruct via
`_passthrough`) and eager debug validation off: `to_dict(validate
False)` returns exactly the field mapping, and `from_dict` of that
mapping with the instance's class rebuilds a structurally identical —
in particular `__eq__`-equal — instance.  Each excluded situation is a
genuine failure of the code's round trip: `shorthand` fields are
silently dropped (see the counterexample), sentinel-valued fields are
omitted while `__eq__` compares the raw field dicts, a string `mark` is
rewritten to a mapping, and a registry match would rewrap plain nested
values into wrapper instances. -/
theorem roundtrip_clean (M : Model) (c : Nat) (kwds : List (String × Val))
    (f1 f2 : Nat) (hclean : cleanFields kwds = true)
    (hschema : simpleSch (M.env c) = true) (hdebug : M.debug = false)
    (hf1 : vsizeD kwds < f1) (hf2 : vsizeD kwds + 2 ≤ f2) :
    to_dict M f1 c [] kwds false [] = Except.ok (Val.vdict kwds) ∧
    from_dict M [] f2 (Val.vdict kwds) (some c) none none none =
      Except.ok (Val.vobj c [] kwds) :=
  ⟨to_dict_clean M f1 c kwds hclean hf1,
   from_dict_clean M c kwds f2 hclean hschema hdebug hf2⟩

/-- A model with a class bound to a reference-free object schema,
debug mode off. -/
def M4 : Model :=
  { oracle := fun _ _ _ => [],
    env := fun _ => Val.vdict
      [("type", Val.vstr "object"),
       ("properties", Val.vdict
         [("a", Val.vdict [("type", Val.vstr "number")]),
          ("b", Val.vdict [("type", Val.vstr "string")])])],
    root := Val.vdict [], debug := false }

/-- C1 witness: a concrete two-field instance canonicalizes to its
field mapping and reconstructs to an equal instance. -/
theorem roundtrip_clean_witness :
    to_dict M4 20 0 [] [("a", Val.vnum 1), ("b", Val.vstr "x")] false [] =
      Except.ok (Val.vdict [("a", Val.vnum 1), ("b", Val.vstr "x")]) ∧
    from_dict M4 [] 20 (Val.vdict [("a", Val.vnum 1), ("b", Val.vstr "x")])
        (some 0) none none none =
      Except.ok (Val.vobj 0 [] [("a", Val.vnum 1), ("b", Val.vstr "x")]) :=
  roundtrip_clean M4 0 [("a", Val.vnum 1), ("b", Val.vstr "x")] 20 20
    rfl rfl rfl (by decide) (by decide)

/-- C1 counterexample: a field named `shorthand` is dropped by
`to_dict`, so the canonical form loses it, `from_dict` reconstructs an
instance without the field, and the two instances are not value-equal
(`__eq__` compares the `_kwds` dicts, whose key sets differ). -/
theorem roundtrip_fails_on_shorthand :
    to_dict M0 5 0 [] [("shorthand", Val.vstr "s")] false [] =
      Except.ok (Val.vdict []) ∧
    from_dict M0 [] 7 (Val.vdict []) (some 0) none none none =
      Except.ok (Val.vobj 0 [] []) ∧
    pyEq 10 (Val.vobj 0 [] [])
      (Val.vobj 0 [] [("shorthand", Val.vstr "s")]) = false :=
  ⟨rfl, rfl, rfl⟩
